import Mathlib

/-!
# Verification of the tts-bot text-chunking and delivery pipeline

Shallow embedding of `src/tts_bot.py`.  Strings are modelled as `List Char`;
Python's `str.rfind`, `str.strip`, slicing and truthiness are reproduced
explicitly.  The chunker loop is modelled with explicit fuel, returning
`none` exactly when the Python loop would not terminate.
-/

set_option autoImplicit false
set_option linter.unusedVariables false

namespace TTSBot

/-! ## Python string primitives -/

/-- The whitespace characters stripped by Python's `str.strip()`
(ASCII fragment, which is all the source ever strips). -/
def pyWhitespace : List Char := [' ', '\t', '\n', '\r', '\x0b', '\x0c']

def pyIsSpace (c : Char) : Bool := pyWhitespace.contains c

/-- Python `s.strip()`: remove leading and trailing whitespace. -/
def pyStrip (s : List Char) : List Char :=
  ((s.dropWhile pyIsSpace).reverse.dropWhile pyIsSpace).reverse

/-- Normalisation of a slice index as Python performs it: negative indices
count from the end, and the result is clamped to `[0, n]`. -/
def pyNormIdx (x : Int) (n : Nat) : Nat :=
  if x < 0 then (x + n).toNat else min x.toNat n

/-- Helper for `pyRfind`: scans the suffixes of `s` left to right carrying
the best (i.e. rightmost so far) absolute position `best` of an occurrence
of `sub` contained in the normalised window `[st, fin)`.  `-1` means no
occurrence, as for `str.rfind`. -/
def pyRfindAux (sub : List Char) (st fin : Nat) : List Char → Nat → Int → Int
  | [], _, best => best
  | c :: tl, i, best =>
    pyRfindAux sub st fin tl (i + 1)
      (if st ≤ i ∧ i + sub.length ≤ fin ∧ sub.isPrefixOf (c :: tl) then (i : Int) else best)

/-- Python `s.rfind(sub, start, fin)`: highest index at which `sub` is
contained within the slice `s[start:fin]`, or `-1`. -/
def pyRfind (s sub : List Char) (start fin : Int) : Int :=
  pyRfindAux sub (pyNormIdx start s.length) (pyNormIdx fin s.length) s 0 (-1)

/-! ## The chunker (`split_text_into_chunks`, src/tts_bot.py lines 1055-1103) -/

/-- The six sentence-terminator patterns scanned by the source, in source
order: `['. ', '? ', '! ', '.\n', '?\n', '!\n']`. -/
def sentencePuncts : List (List Char) :=
  [['.', ' '], ['?', ' '], ['!', ' '], ['.', '\n'], ['?', '\n'], ['!', '\n']]

/-- The accumulation step of the source's `for punct in [...]` scan:
`if pos > sentence_end: sentence_end = pos + 1`. -/
def sentStep (se pos : Int) : Int := if se < pos then pos + 1 else se

/-- The `sentence_end` value computed by the source's punct scan. -/
def sentenceEndScan (remaining : List Char) (max_chunk_size : Nat) : Int :=
  sentencePuncts.foldl
    (fun se punct => sentStep se (pyRfind remaining punct 0 ((max_chunk_size : Int) - 1)))
    (-1)

/-- The cut position `chunk_end` chosen by one iteration of the source's
splitting loop. -/
def chunkEnd (remaining : List Char) (max_chunk_size : Nat) : Nat :=
  let paragraph_break := pyRfind remaining ['\n', '\n'] 0 (max_chunk_size : Int)
  if paragraph_break = -1 ∨ paragraph_break < ((max_chunk_size / 2 : Nat) : Int) then
    let sentence_end := sentenceEndScan remaining max_chunk_size
    if sentence_end < ((max_chunk_size / 2 : Nat) : Int) then
      let space_pos := pyRfind remaining [' '] ((max_chunk_size / 2 : Nat) : Int) (max_chunk_size : Int)
      if space_pos ≠ -1 then space_pos.toNat else max_chunk_size
    else (sentence_end + 1).toNat
  else (paragraph_break + 2).toNat

/-- The source's `while remaining_text:` loop, with explicit fuel.
Returns `none` exactly when the fuel is exhausted with text left over,
which models non-termination of the Python loop. -/
def splitLoop (max_chunk_size : Nat) : Nat → List Char → List (List Char) → Option (List (List Char))
  | 0, remaining, chunks => if remaining = [] then some chunks else none
  | fuel + 1, remaining, chunks =>
    if remaining = [] then some chunks
    else if remaining.length ≤ max_chunk_size then some (chunks ++ [remaining])
    else
      let ce := chunkEnd remaining max_chunk_size
      splitLoop max_chunk_size fuel (pyStrip (remaining.drop ce))
        (chunks ++ [pyStrip (remaining.take ce)])

/-- `split_text_into_chunks(text, max_chunk_size)` from the source.  The
fuel `text.length + 1` is proved sufficient whenever `max_chunk_size ≥ 1`. -/
def split_text_into_chunks (text : List Char) (max_chunk_size : Nat) : Option (List (List Char)) :=
  if text.length ≤ max_chunk_size then some [text]
  else splitLoop max_chunk_size (text.length + 1) text []

/-! ## Rightmost-match characterisations of the sentence cut

`claimSentenceCut` renders the specification's words literally;
`codeSentenceCut` renders what the source's `rfind` window and acceptance
test actually compute.  Both are compared with the embedded code. -/

/-- Rightmost `q < n` with `f q = true`, scanning left to right. -/
def findRightmost (f : Nat → Bool) (n : Nat) : Option Nat :=
  (List.range n).foldl (fun acc q => if f q then some q else acc) none

/-- A sentence-terminating punctuation immediately followed by a space or
newline stands at position `p` of `s`. -/
def isSentenceTerminator (s : List Char) (p : Nat) : Bool :=
  sentencePuncts.any (fun pt => pt.isPrefixOf (s.drop p))

/-- The sentence-cut rule as the claim words it: the punctuation position
is at or before `max_size - 1` and must itself be at least `max_size/2`. -/
def claimSentenceCut (s : List Char) (m : Nat) : Option Nat :=
  findRightmost
    (fun p => isSentenceTerminator s p && decide (p ≤ m - 1) && decide (m / 2 ≤ p)) s.length

/-- The sentence-cut rule the source actually computes: the two-character
terminator is contained in the `rfind` window `[0, m - 1)`, and the
accepted quantity is the position `p + 1` just after the punctuation. -/
def codeSentenceCut (s : List Char) (m : Nat) : Option Nat :=
  findRightmost
    (fun p => isSentenceTerminator s p &&
      decide (p + 2 ≤ pyNormIdx ((m : Int) - 1) s.length) && decide (m / 2 ≤ p + 1)) s.length

/-! ## Python truthiness helpers -/

/-- Python truthiness of a `bytes`-or-`None` value: `None` and `b''` are falsy. -/
def pyTruthyBytes (a : Option (List Nat)) : Bool :=
  match a with
  | none => false
  | some l => !l.isEmpty

/-- Python falsiness of a `str`-or-`None` value: `None` and `""` are falsy. -/
def pyFalsyStr (s : Option (List Char)) : Bool :=
  match s with
  | none => true
  | some l => l.isEmpty

/-! ## Naming policy (callback_handler lines 248-263, pipeline name helpers) -/

/-- `''.join(c for c in s if c.isalnum() or c in ' _-.')`. -/
def sanitizeName (s : List Char) : List Char :=
  s.filter (fun c => c.isAlphanum || c = ' ' || c = '_' || c = '-' || c = '.')

/-- The base file name the chapter flow derives from book/chapter/original
file names (callback_handler). -/
def make_base_file_name (book_title chapter_title original_base_name : List Char) : List Char :=
  let sanitized_chapter_title := sanitizeName chapter_title
  let sanitized_book_title := sanitizeName book_title
  if !sanitized_book_title.isEmpty then
    sanitized_book_title ++ (" - ").toList ++ sanitized_chapter_title
  else if !original_base_name.isEmpty then
    original_base_name ++ (" - ").toList ++ sanitized_chapter_title
  else sanitized_chapter_title

/-- `if len(base_file_name) > 36: base_file_name = base_file_name[:35] + "..."`. -/
def truncate_base_file_name (base_file_name : List Char) : List Char :=
  if 36 < base_file_name.length then base_file_name.take 35 ++ ['.', '.', '.']
  else base_file_name

/-- The chapter flow's per-part name `f"{base_file_name}-{i}"`. -/
def chapter_part_file_name (base_file_name : List Char) (i : Nat) : List Char :=
  base_file_name ++ ['-'] ++ (Nat.repr i).toList

/-- The caption/file name chosen inside `process_text_chunk`
(lines 1140-1146): the given file name if truthy, else the sanitized,
64-capped title. -/
def process_text_chunk_output_name (title : List Char) (file_name : Option (List Char)) :
    List Char :=
  if pyFalsyStr file_name then
    let sanitized_title := sanitizeName title
    if 64 < sanitized_title.length then sanitized_title.take 61 ++ ['.', '.', '.']
    else sanitized_title
  else file_name.getD []

/-- The per-part file name of the plain-text flow
(`process_text_to_speech`, multi-chunk branch). -/
def part_file_name (file_name_base : Option (List Char)) (i total : Nat) : List Char :=
  if pyFalsyStr file_name_base then
    ("speech_part_").toList ++ (Nat.repr i).toList ++ ("_of_").toList ++ (Nat.repr total).toList
  else
    let clean_base := sanitizeName (file_name_base.getD [])
    let clean_base50 :=
      if 50 < clean_base.length then clean_base.take 47 ++ ['.', '.', '.'] else clean_base
    clean_base50 ++ ("_part_").toList ++ (Nat.repr i).toList ++ ("_of_").toList
      ++ (Nat.repr total).toList

/-- The output file name of the plain-text flow's single-chunk branch. -/
def single_output_file_name (file_name_base : Option (List Char)) : List Char :=
  if pyFalsyStr file_name_base then ("speech").toList
  else
    let cleaned := sanitizeName (file_name_base.getD [])
    if 64 < cleaned.length then cleaned.take 61 ++ ['.', '.', '.'] else cleaned

/-! ## Synthesis backends (elevenlabs_text_to_speech lines 572-600,
azure_text_to_speech lines 602-627, azure_sdk_synthesis lines 629-720)

External calls (the provider SDK, the REST transport, message sends) are
oracles describing how the collaborator behaves on each invocation; the
embedded functions reproduce the source's control flow around them. -/

def azure_placeholder_key : List Char := ("your_azure_speech_key_here").toList

/-- Behaviour of the provider SDK synthesis call, as observed by
`azure_sdk_synthesis` after it created the staging file (or while setting
up, before the file exists). -/
inductive SdkSynthesisOutcome where
  | completed (audio : List Nat)
  | canceled (reason details : List Char)
  | failedReason (reason : List Char)
  | raisedAfterFile (msg : List Char)
  | raisedBeforeFile (msg : List Char)
deriving DecidableEq

structure SdkSynthesisResult where
  audio : Option (List Nat)
  error : Option (List Char)
  /-- whether the transient staging file still exists when the call returns -/
  tempFileRemains : Bool
deriving DecidableEq

/-- `azure_sdk_synthesis`: SDK attempt writing to a transient staging file.
The handled outcome branches unlink the file; the exception handler
returns without unlinking. -/
def azure_sdk_synthesis (hasEndpointOrRegion : Bool) (outcome : SdkSynthesisOutcome) :
    SdkSynthesisResult :=
  if !hasEndpointOrRegion then
    { audio := none, error := some ("Either Azure Speech URL or region must be provided").toList,
      tempFileRemains := false }
  else
    match outcome with
    | .completed a =>
      { audio := some a, error := none, tempFileRemains := false }
    | .canceled reason details =>
      { audio := none,
        error := some (("Azure TTS cancelled: ").toList ++ reason
          ++ (". Error details: ").toList ++ details),
        tempFileRemains := false }
    | .failedReason reason =>
      { audio := none, error := some (("Azure TTS failed with reason: ").toList ++ reason),
        tempFileRemains := false }
    | .raisedAfterFile msg =>
      { audio := none, error := some (("Azure SDK synthesis error: ").toList ++ msg),
        tempFileRemains := true }
    | .raisedBeforeFile msg =>
      { audio := none, error := some (("Azure SDK synthesis error: ").toList ++ msg),
        tempFileRemains := false }

/-- Behaviour of one backend call (`azure_sdk_synthesis` or
`azure_rest_synthesis`) as seen from `azure_text_to_speech`. -/
inductive AzureCall where
  | ret (audio : Option (List Nat)) (error : Option (List Char))
  | raised (msg : List Char)
deriving DecidableEq

structure AzureTtsResult where
  audio : Option (List Nat)
  error : Option (List Char)
  sdkAttempted : Bool
  restAttempted : Bool
deriving DecidableEq

/-- `azure_text_to_speech`: credential precheck, SDK attempt, REST
fallback, with every exception converted into an error return. -/
def azure_text_to_speech (text : List Char) (key : Option (List Char))
    (sdk rest : AzureCall) : AzureTtsResult :=
  if pyFalsyStr key || (key.getD [] == azure_placeholder_key) then
    { audio := none, error := some ("Azure Speech key not properly configured").toList,
      sdkAttempted := false, restAttempted := false }
  else
    match sdk with
    | .raised m =>
      { audio := none, error := some (("Azure TTS error: ").toList ++ m),
        sdkAttempted := true, restAttempted := false }
    | .ret audio _ =>
      if pyTruthyBytes audio then
        { audio := audio, error := none, sdkAttempted := true, restAttempted := false }
      else
        match rest with
        | .raised m =>
          { audio := none, error := some (("Azure TTS error: ").toList ++ m),
            sdkAttempted := true, restAttempted := true }
        | .ret audio2 error2 =>
          { audio := audio2, error := error2, sdkAttempted := true, restAttempted := true }

/-- Behaviour of the streaming POST issued by `elevenlabs_text_to_speech`. -/
inductive ElevenTransport where
  | resp (status : Nat) (content : List Nat)
  | raised (msg : List Char)
deriving DecidableEq

structure ElevenResult where
  /-- the POST is issued unconditionally: there is no credential precheck -/
  requestSent : Bool
  url_voice_id : List Char
  header_api_key : Option (List Char)
  /-- `.error` models an uncaught transport exception (no `try` in the source) -/
  outcome : Except (List Char) (Option (List Nat))

/-- `elevenlabs_text_to_speech`: default the voice, issue the streaming
request, return `None` on any non-200 status and the body otherwise. -/
def elevenlabs_text_to_speech (text : List Char) (api_key : Option (List Char))
    (voice_id : Option (List Char))
    (default_voice_id : List Char) (transport : ElevenTransport) : ElevenResult :=
  let vid := if pyFalsyStr voice_id then default_voice_id else voice_id.getD []
  { requestSent := true
    url_voice_id := vid
    header_api_key := api_key
    outcome :=
      match transport with
      | .raised m => .error m
      | .resp status content => .ok (if status ≠ 200 then none else some content) }

/-! ## The segment pipeline (`process_text_to_speech` lines 904-1053) -/

inductive Service where
  | elevenlabs
  | azure
deriving DecidableEq

inductive SendOutcome where
  | ok
  | raised (msg : List Char)
deriving DecidableEq

/-- The observable outcome the loop body produces for one chunk. -/
inductive PartOutcome where
  | sentVoice (audio : List Nat) (caption : List Char)
  | sentAudioFile (audio : List Nat) (filename : List Char)
  | azureErrorReported (msg : Option (List Char))
  | failedReported
  | errorReported (msg : List Char)
deriving DecidableEq

/-- Per-request collaborators of the pipeline: the selected service and
voice, and oracles describing how each external call behaves on the
`i`-th chunk. -/
structure PipelineEnv where
  tts_service : Service
  eleven_api_key : Option (List Char)
  eleven_voice_id : Option (List Char)
  eleven_default_voice : List Char
  azure_key : Option (List Char)
  file_name_base : Option (List Char)
  eleven_transport : Nat → ElevenTransport
  azure_sdk : Nat → AzureCall
  azure_rest : Nat → AzureCall
  voice_send : Nat → SendOutcome
  audio_send : Nat → SendOutcome

def forbiddenMarker : List Char := ("Voice_messages_forbidden").toList

/-- Python's `needle in haystack` on strings: some suffix of the haystack
starts with the needle. -/
def containsSubstring (needle haystack : List Char) : Bool :=
  (List.range (haystack.length + 1)).any (fun i => needle.isPrefixOf (haystack.drop i))

/-- Sending phase: try a voice message; on a `Voice_messages_forbidden`
error send an audio file instead; re-raise anything else. -/
def sendChunkAudio (env : PipelineEnv) (i : Nat) (audio : List Nat) (name : List Char) :
    Except (List Char) PartOutcome :=
  match env.voice_send i with
  | .ok => .ok (.sentVoice audio name)
  | .raised m =>
    if containsSubstring forbiddenMarker m then
      match env.audio_send i with
      | .ok => .ok (.sentAudioFile audio name)
      | .raised m2 => .error m2
    else .error m

/-- The body of the per-chunk `try:` block: synthesize with the selected
service, bail out with a reported failure on falsy audio, else send.
An `.error` value is an exception crossing the body. -/
def processChunkBody (env : PipelineEnv) (i : Nat) (name : List Char) (chunkText : List Char) :
    Except (List Char) PartOutcome :=
  match env.tts_service with
  | .elevenlabs =>
    let out := elevenlabs_text_to_speech chunkText env.eleven_api_key env.eleven_voice_id
      env.eleven_default_voice (env.eleven_transport i)
    match out.outcome with
    | .error m => .error m
    | .ok audio =>
      if !pyTruthyBytes audio then .ok .failedReported
      else sendChunkAudio env i (audio.getD []) name
  | .azure =>
    let out := azure_text_to_speech chunkText env.azure_key (env.azure_sdk i) (env.azure_rest i)
    if !pyTruthyBytes out.audio then .ok (.azureErrorReported out.error)
    else sendChunkAudio env i (out.audio.getD []) name

/-- One iteration of the per-chunk loop: the `except Exception` handler
turns any exception into a reported error, after which the loop continues. -/
def processOneChunk (env : PipelineEnv) (i : Nat) (name : List Char) (chunkText : List Char) :
    PartOutcome :=
  match processChunkBody env i name chunkText with
  | .ok o => o
  | .error m => .errorReported m

/-- The multi-chunk branch: `for i, chunk in enumerate(text_chunks, 1)`. -/
def multiChunkLoop (env : PipelineEnv) (total : Nat) : Nat → List (List Char) → List PartOutcome
  | _, [] => []
  | i, chunk :: restChunks =>
    processOneChunk env i (part_file_name env.file_name_base i total) chunk ::
      multiChunkLoop env total (i + 1) restChunks

/-- `process_text_to_speech`: chunk at 4000 characters, then the single- or
multi-chunk branch.  `none` only if the chunker would not terminate,
which cannot happen at size 4000. -/
def process_text_to_speech (env : PipelineEnv) (text : List Char) : Option (List PartOutcome) :=
  (split_text_into_chunks text 4000).map (fun text_chunks =>
    if text_chunks.length = 1 then
      [processOneChunk env 1 (single_output_file_name env.file_name_base) (text_chunks.headD [])]
    else multiChunkLoop env text_chunks.length 1 text_chunks)

/-- Stub environment for partial-failure analysis: Azure is selected with a
valid key, the SDK and the REST fallback both fail on chunk `k` and the SDK
succeeds on every other chunk; message sends succeed. -/
def azureFailStubEnv (k : Nat) (audio : List Nat) (emsg : List Char) (key : List Char)
    (fb : Option (List Char)) : PipelineEnv :=
  { tts_service := .azure
    eleven_api_key := none
    eleven_voice_id := none
    eleven_default_voice := []
    azure_key := some key
    file_name_base := fb
    eleven_transport := fun _ => .resp 200 audio
    azure_sdk := fun i => if i = k then .ret none (some emsg) else .ret (some audio) none
    azure_rest := fun _ => .ret none (some emsg)
    voice_send := fun _ => .ok
    audio_send := fun _ => .ok }

/-- Stub environment for exception isolation: Eleven Labs is selected and
its transport raises on chunk `k` only; message sends succeed. -/
def elevenRaiseStubEnv (k : Nat) (audio : List Nat) (m2 : List Char)
    (fb : Option (List Char)) : PipelineEnv :=
  { tts_service := .elevenlabs
    eleven_api_key := none
    eleven_voice_id := none
    eleven_default_voice := []
    azure_key := none
    file_name_base := fb
    eleven_transport := fun i => if i = k then .raised m2 else .resp 200 audio
    azure_sdk := fun _ => .ret none none
    azure_rest := fun _ => .ret none none
    voice_send := fun _ => .ok
    audio_send := fun _ => .ok }

/-! ## Concrete texts used by the boundary-preference analyses -/

/-- `"A"*1999 + ". " + "B"*1999`. -/
def boundaryExampleText : List Char :=
  List.replicate 1999 'A' ++ ('.' :: ' ' :: List.replicate 1999 'B')

/-- `"aaaaa. X. Ybbbbbbbbbb"`: the terminator at position 8 fits the
claim's window but not the code's. -/
def windowCexText : List Char := ("aaaaa. X. Ybbbbbbbbbb").toList

/-! ## Specification lemmas for the Python string primitives -/

theorem pyStrip_cons_of_space (c : Char) (t : List Char) (h : pyIsSpace c = true) :
    pyStrip (c :: t) = pyStrip t := by
  unfold pyStrip
  rw [List.dropWhile_cons, if_pos h]

theorem pyStrip_length_le (s : List Char) : (pyStrip s).length ≤ s.length := by
  unfold pyStrip
  calc ((s.dropWhile pyIsSpace).reverse.dropWhile pyIsSpace).reverse.length
      = ((s.dropWhile pyIsSpace).reverse.dropWhile pyIsSpace).length := by
        rw [List.length_reverse]
    _ ≤ (s.dropWhile pyIsSpace).reverse.length := (List.dropWhile_sublist _).length_le
    _ = (s.dropWhile pyIsSpace).length := by rw [List.length_reverse]
    _ ≤ s.length := (List.dropWhile_sublist _).length_le

theorem pyRfindAux_sound (sub : List Char) (st fin : Nat) :
    ∀ (s : List Char) (i : Nat) (best : Int),
      pyRfindAux sub st fin s i best = best ∨
      ∃ k : Nat, pyRfindAux sub st fin s i best = (k : Int) ∧ i ≤ k ∧ st ≤ k ∧
        k + sub.length ≤ fin ∧ sub.isPrefixOf (s.drop (k - i)) = true := by
  intro s
  induction s with
  | nil => intro i best; left; rfl
  | cons c tl ih =>
    intro i best
    have hunf : pyRfindAux sub st fin (c :: tl) i best = pyRfindAux sub st fin tl (i + 1)
        (if st ≤ i ∧ i + sub.length ≤ fin ∧ sub.isPrefixOf (c :: tl) then (i : Int) else best) :=
      rfl
    rw [hunf]
    rcases ih (i + 1)
        (if st ≤ i ∧ i + sub.length ≤ fin ∧ sub.isPrefixOf (c :: tl) then (i : Int) else best)
      with h | ⟨k, hk, hik, hst, hfin, hpre⟩
    · by_cases hc : st ≤ i ∧ i + sub.length ≤ fin ∧ sub.isPrefixOf (c :: tl)
      · right
        refine ⟨i, ?_, Nat.le_refl i, hc.1, hc.2.1, ?_⟩
        · rw [h, if_pos hc]
        · simpa [Nat.sub_self] using hc.2.2
      · left; rw [h, if_neg hc]
    · right
      refine ⟨k, hk, by omega, hst, hfin, ?_⟩
      have hki : k - i = (k - (i + 1)) + 1 := by omega
      rw [hki]
      simpa [List.drop_succ_cons] using hpre

theorem pyRfindAux_complete (sub : List Char) (st fin : Nat) (hsub : sub ≠ []) :
    ∀ (s : List Char) (i : Nat) (best : Int) (k : Nat),
      i ≤ k → st ≤ k → k + sub.length ≤ fin → sub.isPrefixOf (s.drop (k - i)) = true →
      (k : Int) ≤ pyRfindAux sub st fin s i best := by
  intro s
  induction s with
  | nil =>
    intro i best k _ _ _ hpre
    rw [List.drop_nil] at hpre
    cases sub with
    | nil => exact absurd rfl hsub
    | cons a as => simp [List.isPrefixOf] at hpre
  | cons c tl ih =>
    intro i best k hik hst hfin hpre
    show (k : Int) ≤ pyRfindAux sub st fin tl (i + 1)
      (if st ≤ i ∧ i + sub.length ≤ fin ∧ sub.isPrefixOf (c :: tl) then (i : Int) else best)
    rcases Nat.eq_or_lt_of_le hik with hik' | hik'
    · subst hik'
      have hc : st ≤ i ∧ i + sub.length ≤ fin ∧ sub.isPrefixOf (c :: tl) := by
        refine ⟨hst, hfin, ?_⟩
        simpa [Nat.sub_self] using hpre
      rw [if_pos hc]
      rcases pyRfindAux_sound sub st fin tl (i + 1) (i : Int) with h | ⟨m, hm, him, _, _, _⟩
      · rw [h]
      · rw [hm]; exact_mod_cast Nat.le_of_succ_le him
    · have hpre' : sub.isPrefixOf (tl.drop (k - (i + 1))) = true := by
        have hki : k - i = (k - (i + 1)) + 1 := by omega
        rw [hki] at hpre
        simpa [List.drop_succ_cons] using hpre
      exact ih (i + 1) _ k hik' hst hfin hpre'

theorem pyNormIdx_natCast (n len : Nat) : pyNormIdx (n : Int) len = min n len := by
  unfold pyNormIdx
  rw [if_neg (by omega)]
  simp

theorem pyRfind_sound (s sub : List Char) (start fin : Int) :
    pyRfind s sub start fin = -1 ∨
    ∃ k : Nat, pyRfind s sub start fin = (k : Int) ∧
      pyNormIdx start s.length ≤ k ∧ k + sub.length ≤ pyNormIdx fin s.length ∧
      sub.isPrefixOf (s.drop k) = true := by
  rcases pyRfindAux_sound sub (pyNormIdx start s.length) (pyNormIdx fin s.length) s 0 (-1)
    with h | ⟨k, hk, _, hst, hfin, hpre⟩
  · left; exact h
  · right; exact ⟨k, hk, hst, hfin, by simpa using hpre⟩

theorem pyRfind_complete (s sub : List Char) (start fin : Int) (hsub : sub ≠ []) (k : Nat)
    (hst : pyNormIdx start s.length ≤ k) (hfin : k + sub.length ≤ pyNormIdx fin s.length)
    (hpre : sub.isPrefixOf (s.drop k) = true) :
    (k : Int) ≤ pyRfind s sub start fin :=
  pyRfindAux_complete sub _ _ hsub s 0 (-1) k (Nat.zero_le k) hst hfin (by simpa using hpre)

/-! ## Lemmas about the sentence scan fold -/

theorem sentStep_cases (se r : Int) : sentStep se r = se ∨ sentStep se r = r + 1 := by
  unfold sentStep
  split
  · right; rfl
  · left; rfl

theorem foldl_sentStep_cases :
    ∀ (L : List Int) (se : Int), L.foldl sentStep se = se ∨ ∃ r ∈ L, L.foldl sentStep se = r + 1 := by
  intro L
  induction L with
  | nil => intro se; left; rfl
  | cons r L ih =>
    intro se
    have hfold : (r :: L).foldl sentStep se = L.foldl sentStep (sentStep se r) := rfl
    rw [hfold]
    rcases ih (sentStep se r) with h | ⟨r', hr', h⟩
    · rcases sentStep_cases se r with hs | hs
      · left; rw [h, hs]
      · right; exact ⟨r, List.mem_cons_self _ _, by rw [h, hs]⟩
    · right; exact ⟨r', List.mem_cons_of_mem _ hr', h⟩

theorem foldl_sentStep_stable (p : Int) :
    ∀ (L : List Int), (∀ r ∈ L, r ≤ p) → L.foldl sentStep (p + 1) = p + 1 := by
  intro L
  induction L with
  | nil => intro _; rfl
  | cons r L ih =>
    intro hub
    have hfold : (r :: L).foldl sentStep (p + 1) = L.foldl sentStep (sentStep (p + 1) r) := rfl
    have hr : r ≤ p := hub r (List.mem_cons_self _ _)
    have hstep : sentStep (p + 1) r = p + 1 := by unfold sentStep; rw [if_neg (by omega)]
    rw [hfold, hstep]
    exact ih (fun r' hr' => hub r' (List.mem_cons_of_mem _ hr'))

theorem foldl_sentStep_run (Good : Int → Prop) (p : Int) (hp0 : 0 ≤ p) (hGp : Good p)
    (hpair : ∀ a b : Int, Good a → Good b → 0 ≤ a → 0 ≤ b → b ≠ a + 1) :
    ∀ (L : List Int) (se : Int),
      (∀ r ∈ L, r = -1 ∨ (0 ≤ r ∧ Good r ∧ r ≤ p)) →
      (se = -1 ∨ ∃ a : Int, 0 ≤ a ∧ Good a ∧ a ≤ p ∧ se = a + 1) →
      (p ∈ L ∨ se = p + 1) →
      L.foldl sentStep se = p + 1 := by
  intro L
  induction L with
  | nil =>
    intro se _ _ hmem
    rcases hmem with h | h
    · exact absurd h (List.not_mem_nil p)
    · exact h
  | cons r L ih =>
    intro se hL hse hmem
    have hLtail : ∀ x ∈ L, x = -1 ∨ (0 ≤ x ∧ Good x ∧ x ≤ p) :=
      fun x hx => hL x (List.mem_cons_of_mem _ hx)
    have hr := hL r (List.mem_cons_self _ _)
    have hrle : r ≤ p := by
      rcases hr with h | h
      · omega
      · exact h.2.2
    have hfold : (r :: L).foldl sentStep se = L.foldl sentStep (sentStep se r) := rfl
    rw [hfold]
    by_cases hsetop : se = p + 1
    · have hstep : sentStep se r = p + 1 := by
        unfold sentStep; rw [hsetop, if_neg (by omega)]
      rw [hstep]
      exact ih (p + 1) hLtail (Or.inr ⟨p, hp0, hGp, le_refl p, rfl⟩) (Or.inr rfl)
    · have hpmem : p ∈ r :: L := by
        rcases hmem with h | h
        · exact h
        · exact absurd h hsetop
      rcases List.mem_cons.mp hpmem with hrp | hpL
      -- the head equals the maximal position: the step reaches p + 1 and stays there
      · have hlt : se < p := by
          rcases hse with h | ⟨a, ha0, hGa, hap, h⟩
          · omega
          · have hap' : a + 1 < p ∨ a + 1 = p ∨ a = p := by omega
            rcases hap' with h'' | h'' | h''
            · omega
            · exact absurd h''.symm (hpair a p hGa hGp ha0 hp0)
            · rw [h''] at h
              exact absurd h hsetop
        have hstep : sentStep se r = p + 1 := by
          unfold sentStep
          rw [hrp] at hlt ⊢
          rw [if_pos hlt]
        rw [hstep]
        exact ih (p + 1) hLtail (Or.inr ⟨p, hp0, hGp, le_refl p, rfl⟩) (Or.inr rfl)
      · have hse' : sentStep se r = -1 ∨
            ∃ a : Int, 0 ≤ a ∧ Good a ∧ a ≤ p ∧ sentStep se r = a + 1 := by
          unfold sentStep
          split
          · rcases hr with h | h
            · rcases hse with h2 | ⟨a, ha0, _, _, h2⟩
            -- se < r = -1 is impossible since se ≥ -1
              · exfalso; omega
              · exfalso; omega
            · exact Or.inr ⟨r, h.1, h.2.1, h.2.2, rfl⟩
          · exact hse.imp id (fun ⟨a, h1, h2, h3, h4⟩ => ⟨a, h1, h2, h3, h4⟩)
        exact ih (sentStep se r) hLtail hse' (Or.inl hpL)

/-! ## Lemmas about `chunkEnd` and the splitting loop -/

theorem pyNormIdx_le (n len : Nat) : pyNormIdx (n : Int) len ≤ n := by
  rw [pyNormIdx_natCast]
  exact Nat.min_le_left n len

theorem pyNormIdx_sub_one (m len : Nat) (h1 : 1 ≤ m) :
    pyNormIdx ((m : Int) - 1) len = min (m - 1) len := by
  have h : (m : Int) - 1 = ((m - 1 : Nat) : Int) := by omega
  rw [h, pyNormIdx_natCast]

theorem sentenceEndScan_eq_foldl (s : List Char) (m : Nat) :
    sentenceEndScan s m =
      (sentencePuncts.map (fun pt => pyRfind s pt 0 ((m : Int) - 1))).foldl sentStep (-1) := by
  rw [List.foldl_map]
  rfl

theorem sentencePuncts_length (pt : List Char) (hpt : pt ∈ sentencePuncts) : pt.length = 2 := by
  fin_cases hpt <;> rfl

theorem sentencePuncts_ne_nil (pt : List Char) (hpt : pt ∈ sentencePuncts) : pt ≠ [] := by
  fin_cases hpt <;> simp

/-- Every cut position chosen by the loop fits in the chunk-size bound. -/
theorem chunkEnd_le (s : List Char) (m : Nat) (h1 : 1 ≤ m) : chunkEnd s m ≤ m := by
  unfold chunkEnd
  simp only []
  split
  · split
    · split
      · rename_i hsp
        rcases pyRfind_sound s [' '] ((m / 2 : Nat) : Int) (m : Int) with h | ⟨k, hk, _, hfin, _⟩
        · exact absurd h hsp
        · have hle := pyNormIdx_le m s.length
          rw [hk]
          simp only [List.length_cons, List.length_nil] at hfin
          omega
      · exact le_refl m
    · rename_i hse
      rw [sentenceEndScan_eq_foldl] at hse ⊢
      rcases foldl_sentStep_cases
          (sentencePuncts.map (fun pt => pyRfind s pt 0 ((m : Int) - 1))) (-1) with h | ⟨r, hr, h⟩
      · rw [h] at hse
        exfalso
        apply hse
        omega
      · rcases List.mem_map.mp hr with ⟨pt, hpt, rfl⟩
        rcases pyRfind_sound s pt 0 ((m : Int) - 1) with h2 | ⟨k, hk, _, hfin, _⟩
        · rw [h, h2]
          omega
        · rw [sentencePuncts_length pt hpt] at hfin
          rw [pyNormIdx_sub_one m s.length h1] at hfin
          rw [h, hk]
          have : min (m - 1) s.length ≤ m - 1 := Nat.min_le_left _ _
          omega
  · rename_i hpar
    rcases pyRfind_sound s ['\n', '\n'] 0 (m : Int) with h | ⟨k, hk, _, hfin, _⟩
    · exact absurd (Or.inl h) hpar
    · have hle := pyNormIdx_le m s.length
      rw [hk]
      simp only [List.length_cons, List.length_nil] at hfin
      omega

/-- Either the cut position is positive, or it is `0` and the text begins
with a space (so that the subsequent strip still makes progress). -/
theorem chunkEnd_progress (s : List Char) (m : Nat) (h1 : 1 ≤ m) :
    1 ≤ chunkEnd s m ∨ (chunkEnd s m = 0 ∧ ∃ t, s = ' ' :: t) := by
  unfold chunkEnd
  simp only []
  split
  · split
    · split
      · rename_i hsp
        rcases pyRfind_sound s [' '] ((m / 2 : Nat) : Int) (m : Int) with h | ⟨k, hk, _, _, hpre⟩
        · exact absurd h hsp
        · rcases Nat.eq_zero_or_pos k with hk0 | hk0
          · right
            subst hk0
            refine ⟨by rw [hk]; rfl, ?_⟩
            rw [List.drop_zero] at hpre
            cases s with
            | nil => simp [List.isPrefixOf] at hpre
            | cons c t =>
              simp [List.isPrefixOf] at hpre
              exact ⟨t, by rw [← hpre]⟩
          · left
            rw [hk]
            omega
      · left; exact h1
    · rename_i hse
      left
      have hse' : (0 : Int) ≤ sentenceEndScan s m := by omega
      omega
  · rename_i hpar
    left
    rcases pyRfind_sound s ['\n', '\n'] 0 (m : Int) with h | ⟨k, hk, _, _, _⟩
    · exact absurd (Or.inl h) hpar
    · rw [hk]
      omega

theorem pyStrip_progress (s : List Char) (m : Nat) (h1 : 1 ≤ m) (hlen : m < s.length) :
    (pyStrip (s.drop (chunkEnd s m))).length < s.length := by
  rcases chunkEnd_progress s m h1 with hce | ⟨hce, t, hst⟩
  · calc (pyStrip (s.drop (chunkEnd s m))).length
        ≤ (s.drop (chunkEnd s m)).length := pyStrip_length_le _
      _ = s.length - chunkEnd s m := List.length_drop _ _
      _ < s.length := by omega
  · rw [hce, List.drop_zero, hst, pyStrip_cons_of_space ' ' t (by decide)]
    have := pyStrip_length_le t
    simp only [List.length_cons]
    omega

theorem splitLoop_isSome (m : Nat) (h1 : 1 ≤ m) :
    ∀ (fuel : Nat) (s : List Char) (acc : List (List Char)),
      s.length < fuel → (splitLoop m fuel s acc).isSome = true := by
  intro fuel
  induction fuel with
  | zero => intro s acc h; exact absurd h (by omega)
  | succ fuel ih =>
    intro s acc h
    show (if s = [] then some acc else if s.length ≤ m then some (acc ++ [s])
      else splitLoop m fuel (pyStrip (s.drop (chunkEnd s m)))
        (acc ++ [pyStrip (s.take (chunkEnd s m))])).isSome = true
    split
    · rfl
    · split
      · rfl
      · rename_i hfit
        apply ih
        have := pyStrip_progress s m h1 (by omega)
        omega

theorem splitLoop_acc (m : Nat) :
    ∀ (fuel : Nat) (s : List Char) (acc out : List (List Char)),
      splitLoop m fuel s acc = some out → ∃ suffix, out = acc ++ suffix := by
  intro fuel
  induction fuel with
  | zero =>
    intro s acc out h
    unfold splitLoop at h
    split at h
    · exact ⟨[], by simpa using h.symm⟩
    · exact absurd h (by simp)
  | succ fuel ih =>
    intro s acc out h
    unfold splitLoop at h
    split at h
    · exact ⟨[], by simpa using h.symm⟩
    · split at h
      · exact ⟨[s], by simpa using h.symm⟩
      · rcases ih _ _ _ h with ⟨suffix, hsuf⟩
        exact ⟨pyStrip (s.take (chunkEnd s m)) :: suffix, by simpa using hsuf⟩

theorem splitLoop_bound (m : Nat) (h1 : 1 ≤ m) :
    ∀ (fuel : Nat) (s : List Char) (acc out : List (List Char)),
      (∀ c ∈ acc, c.length ≤ m) → splitLoop m fuel s acc = some out →
      ∀ c ∈ out, c.length ≤ m := by
  intro fuel
  induction fuel with
  | zero =>
    intro s acc out hacc h
    unfold splitLoop at h
    split at h
    · cases h; exact hacc
    · exact absurd h (by simp)
  | succ fuel ih =>
    intro s acc out hacc h
    unfold splitLoop at h
    split at h
    · cases h; exact hacc
    · split at h
      · rename_i hfit
        cases h
        intro c hc
        rcases List.mem_append.mp hc with hc | hc
        · exact hacc c hc
        · rw [List.mem_singleton.mp hc]; exact hfit
      · refine ih _ _ _ ?_ h
        intro c hc
        rcases List.mem_append.mp hc with hc | hc
        · exact hacc c hc
        · rw [List.mem_singleton.mp hc]
          calc (pyStrip (s.take (chunkEnd s m))).length
              ≤ (s.take (chunkEnd s m)).length := pyStrip_length_le _
            _ ≤ chunkEnd s m := by rw [List.length_take]; exact Nat.min_le_left _ _
            _ ≤ m := chunkEnd_le s m h1

/-! ## Lemmas about the rightmost-match characterisations -/

theorem findRightmost_succ (f : Nat → Bool) (n : Nat) :
    findRightmost f (n + 1) = if f n then some n else findRightmost f n := by
  unfold findRightmost
  rw [List.range_succ, List.foldl_append]
  rfl

theorem findRightmost_sound (f : Nat → Bool) :
    ∀ (n q : Nat), findRightmost f n = some q → q < n ∧ f q = true := by
  intro n
  induction n with
  | zero =>
    intro q h
    exact absurd h (by simp [findRightmost])
  | succ n ih =>
    intro q h
    rw [findRightmost_succ] at h
    split at h
    · rename_i hfn
      cases h
      exact ⟨Nat.lt_succ_self n, hfn⟩
    · rcases ih q h with ⟨h1, h2⟩
      exact ⟨Nat.lt_succ_of_lt h1, h2⟩

theorem findRightmost_max (f : Nat → Bool) :
    ∀ (n k q : Nat), k < n → f k = true → findRightmost f n = some q → k ≤ q := by
  intro n
  induction n with
  | zero => intro k q hk _ _; exact absurd hk (by omega)
  | succ n ih =>
    intro k q hk hfk h
    rw [findRightmost_succ] at h
    split at h
    · cases h; omega
    · rename_i hfn
      have hkn : k < n := by
        rcases Nat.lt_succ_iff_lt_or_eq.mp hk with h2 | h2
        · exact h2
        · subst h2; exact absurd hfk hfn
      exact ih k q hkn hfk h

theorem pyNormIdx_le_length (x : Int) (len : Nat) : pyNormIdx x len ≤ len := by
  unfold pyNormIdx
  split
  · omega
  · omega

theorem pair_isPrefixOf (x y : Char) (l : List Char) (h : [x, y].isPrefixOf l = true) :
    ∃ t, l = x :: y :: t := by
  rw [List.isPrefixOf_iff_prefix] at h
  rcases h with ⟨t, ht⟩
  exact ⟨t, ht.symm⟩

theorem drop_succ_of_drop_cons (s : List Char) (n : Nat) (c : Char) (t : List Char)
    (h : s.drop n = c :: t) : s.drop (n + 1) = t := by
  have h2 : List.drop (n + 1) s = List.drop 1 (List.drop n s) := by
    rw [List.drop_drop, Nat.add_comm]
  rw [h2, h]
  rfl

theorem sentencePuncts_shape (pt : List Char) (hpt : pt ∈ sentencePuncts) :
    ∃ x y, pt = [x, y] ∧ (x = '.' ∨ x = '?' ∨ x = '!') ∧ (y = ' ' ∨ y = '\n') := by
  fin_cases hpt
  · exact ⟨'.', ' ', rfl, Or.inl rfl, Or.inl rfl⟩
  · exact ⟨'?', ' ', rfl, Or.inr (Or.inl rfl), Or.inl rfl⟩
  · exact ⟨'!', ' ', rfl, Or.inr (Or.inr rfl), Or.inl rfl⟩
  · exact ⟨'.', '\n', rfl, Or.inl rfl, Or.inr rfl⟩
  · exact ⟨'?', '\n', rfl, Or.inr (Or.inl rfl), Or.inr rfl⟩
  · exact ⟨'!', '\n', rfl, Or.inr (Or.inr rfl), Or.inr rfl⟩

/-- Two terminator matches can never sit at adjacent positions: the second
character of the left match would have to equal the punctuation character
of the right match, but separator and punctuation characters are disjoint. -/
theorem terminator_not_adjacent (s : List Char) (a b : Nat)
    (ha : isSentenceTerminator s a = true) (hb : isSentenceTerminator s b = true) :
    b ≠ a + 1 := by
  intro hba
  subst hba
  rcases List.any_eq_true.mp ha with ⟨pta, hpta, hprea⟩
  rcases List.any_eq_true.mp hb with ⟨ptb, hptb, hpreb⟩
  rcases sentencePuncts_shape pta hpta with ⟨x1, y1, hpa, _, hy1⟩
  rcases sentencePuncts_shape ptb hptb with ⟨x2, y2, hpb, hx2, _⟩
  rw [hpa] at hprea
  rw [hpb] at hpreb
  rcases pair_isPrefixOf x1 y1 _ hprea with ⟨t1, ht1⟩
  rcases pair_isPrefixOf x2 y2 _ hpreb with ⟨t2, ht2⟩
  rw [drop_succ_of_drop_cons s a x1 (y1 :: t1) ht1] at ht2
  have hchar : y1 = x2 := by
    have := congrArg (fun l => l.headI) ht2
    simpa using this
  rcases hy1 with h | h <;> rcases hx2 with h2 | h2 | h2 <;>
    rw [h, h2] at hchar <;> exact absurd hchar (by decide)

/-- When the code's rightmost acceptable sentence cut is `p`, the source's
scan over the six terminator patterns computes `sentence_end = p + 1`. -/
theorem sentenceEndScan_eq_of_codeCut (s : List Char) (m p : Nat) (h1 : 1 ≤ m)
    (hcut : codeSentenceCut s m = some p) :
    sentenceEndScan s m = (p : Int) + 1 := by
  rcases findRightmost_sound _ _ _ hcut with ⟨hplen, hfp⟩
  rw [Bool.and_eq_true, Bool.and_eq_true] at hfp
  rcases hfp with ⟨⟨hterm, hwin⟩, hacc⟩
  rw [decide_eq_true_eq] at hwin hacc
  rcases List.any_eq_true.mp hterm with ⟨pt0, hpt0, hpre0⟩
  set L := sentencePuncts.map (fun pt => pyRfind s pt 0 ((m : Int) - 1)) with hL
  have hub : ∀ r ∈ L, r = -1 ∨
      (0 ≤ r ∧ (∃ pt ∈ sentencePuncts, pt.isPrefixOf (s.drop r.toNat) = true) ∧ r ≤ (p : Int)) := by
    intro r hr
    rcases List.mem_map.mp hr with ⟨pt, hpt, rfl⟩
    rcases pyRfind_sound s pt 0 ((m : Int) - 1) with h | ⟨k, hk, _, hfin, hpre⟩
    · exact Or.inl h
    · right
      rw [hk]
      have hklen : k + 2 ≤ pyNormIdx ((m : Int) - 1) s.length := by
        rw [sentencePuncts_length pt hpt] at hfin
        exact hfin
      have hkp : k ≤ p := by
        by_cases hacck : m / 2 ≤ k + 1
        · have hfk : (fun q => isSentenceTerminator s q &&
              decide (q + 2 ≤ pyNormIdx ((m : Int) - 1) s.length) && decide (m / 2 ≤ q + 1)) k
                = true := by
            rw [Bool.and_eq_true, Bool.and_eq_true]
            refine ⟨⟨List.any_eq_true.mpr ⟨pt, hpt, hpre⟩, ?_⟩, ?_⟩
            · rw [decide_eq_true_eq]; exact hklen
            · rw [decide_eq_true_eq]; exact hacck
          have hklen2 : k < s.length := by
            have := pyNormIdx_le_length ((m : Int) - 1) s.length
            omega
          exact findRightmost_max _ _ k p hklen2 hfk hcut
        · omega
      constructor
      · omega
      constructor
      · exact ⟨pt, hpt, by simpa using hpre⟩
      · omega
  have hmem : (p : Int) ∈ L := by
    have hge : (p : Int) ≤ pyRfind s pt0 0 ((m : Int) - 1) := by
      apply pyRfind_complete s pt0 0 ((m : Int) - 1) (sentencePuncts_ne_nil pt0 hpt0) p
      · have : pyNormIdx (0 : Int) s.length = min 0 s.length := by
          have h0 : ((0 : Nat) : Int) = (0 : Int) := rfl
          rw [← h0, pyNormIdx_natCast]
        rw [this]
        omega
      · rw [sentencePuncts_length pt0 hpt0]
        exact hwin
      · exact hpre0
    have hle : pyRfind s pt0 0 ((m : Int) - 1) ≤ (p : Int) := by
      have hrmem : pyRfind s pt0 0 ((m : Int) - 1) ∈ L :=
        List.mem_map.mpr ⟨pt0, hpt0, rfl⟩
      rcases hub _ hrmem with h | h
      · omega
      · exact h.2.2
    have : pyRfind s pt0 0 ((m : Int) - 1) = (p : Int) := le_antisymm hle hge
    rw [← this]
    exact List.mem_map.mpr ⟨pt0, hpt0, rfl⟩
  rw [sentenceEndScan_eq_foldl, ← hL]
  apply foldl_sentStep_run
    (fun r => ∃ pt ∈ sentencePuncts, pt.isPrefixOf (s.drop r.toNat) = true) (p : Int)
  · omega
  · exact ⟨pt0, hpt0, by simpa using hpre0⟩
  · intro a b hGa hGb ha0 hb0 hba
    rcases hGa with ⟨pta, hpta, hprea⟩
    rcases hGb with ⟨ptb, hptb, hpreb⟩
    have hterma : isSentenceTerminator s a.toNat = true :=
      List.any_eq_true.mpr ⟨pta, hpta, hprea⟩
    have htermb : isSentenceTerminator s b.toNat = true :=
      List.any_eq_true.mpr ⟨ptb, hptb, hpreb⟩
    have : b.toNat = a.toNat + 1 := by omega
    exact terminator_not_adjacent s a.toNat b.toNat hterma htermb this
  · exact hub
  · exact Or.inl rfl
  · exact Or.inl hmem

/-- When the paragraph break is rejected and a code-side sentence cut `p`
exists, the loop cuts right after the separator: `chunk_end = p + 2`. -/
theorem chunkEnd_eq_of_codeCut (s : List Char) (m p : Nat) (h1 : 1 ≤ m)
    (hpar : pyRfind s ['\n', '\n'] 0 (m : Int) < ((m / 2 : Nat) : Int))
    (hcut : codeSentenceCut s m = some p) :
    chunkEnd s m = p + 2 := by
  have hscan := sentenceEndScan_eq_of_codeCut s m p h1 hcut
  have hacc : m / 2 ≤ p + 1 := by
    rcases findRightmost_sound _ _ _ hcut with ⟨_, hfp⟩
    rw [Bool.and_eq_true, Bool.and_eq_true] at hfp
    exact decide_eq_true_eq.mp hfp.2
  unfold chunkEnd
  simp only []
  rw [if_pos (Or.inr hpar), hscan, if_neg (by omega)]
  omega

theorem splitLoop_step (m fuel : Nat) (s : List Char) (acc : List (List Char))
    (hne : s ≠ []) (hbig : ¬s.length ≤ m) :
    splitLoop m (fuel + 1) s acc =
      splitLoop m fuel (pyStrip (s.drop (chunkEnd s m)))
        (acc ++ [pyStrip (s.take (chunkEnd s m))]) := by
  conv_lhs => rw [splitLoop]
  rw [if_neg hne, if_neg hbig]

/-- On oversize input the first emitted chunk is the stripped prefix cut at
`chunkEnd`. -/
theorem split_first_chunk (s : List Char) (m : Nat) (h1 : 1 ≤ m) (hlen : m < s.length) :
    ∃ rest, split_text_into_chunks s m =
      some (pyStrip (s.take (chunkEnd s m)) :: rest) := by
  have hne : s ≠ [] := by
    intro h
    rw [h] at hlen
    simp only [List.length_nil] at hlen
    omega
  unfold split_text_into_chunks
  rw [if_neg (by omega)]
  rw [splitLoop_step m s.length s [] hne (by omega)]
  have hsome := splitLoop_isSome m h1 s.length (pyStrip (s.drop (chunkEnd s m)))
    ([] ++ [pyStrip (s.take (chunkEnd s m))]) (pyStrip_progress s m h1 hlen)
  rcases Option.isSome_iff_exists.mp hsome with ⟨out, hout⟩
  rcases splitLoop_acc m s.length _ _ out hout with ⟨suffix, hsuf⟩
  refine ⟨suffix, ?_⟩
  rw [hout, hsuf]
  simp

/-- When the remainder after the first cut already fits and is non-empty,
the loop produces exactly the two stripped pieces. -/
theorem split_two_chunks (s : List Char) (m : Nat) (h1 : 1 ≤ m) (hlen : m < s.length)
    (hne2 : pyStrip (s.drop (chunkEnd s m)) ≠ [])
    (hfit : (pyStrip (s.drop (chunkEnd s m))).length ≤ m) :
    split_text_into_chunks s m =
      some [pyStrip (s.take (chunkEnd s m)), pyStrip (s.drop (chunkEnd s m))] := by
  have hne : s ≠ [] := by
    intro h
    rw [h] at hlen
    simp only [List.length_nil] at hlen
    omega
  unfold split_text_into_chunks
  rw [if_neg (by omega)]
  rw [splitLoop_step m s.length s [] hne (by omega)]
  obtain ⟨f0, hf0⟩ : ∃ f0, s.length = f0 + 1 := ⟨s.length - 1, by omega⟩
  rw [hf0]
  conv_lhs => rw [splitLoop]
  rw [if_neg hne2, if_pos hfit]
  simp

/-! ## Claim theorems for the chunker -/

/-- C1: for every text and every `max_size ≥ 1`, every chunk returned by
`split_text_into_chunks` has length at most `max_size`, including the
hard-cut case. -/
theorem chunk_length_le_max (text : List Char) (m : Nat) (h1 : 1 ≤ m)
    (chunks : List (List Char)) (hs : split_text_into_chunks text m = some chunks) :
    ∀ c ∈ chunks, c.length ≤ m := by
  unfold split_text_into_chunks at hs
  split at hs
  · rename_i hfit
    cases hs
    intro c hc
    rw [List.mem_singleton.mp hc]
    exact hfit
  · exact splitLoop_bound m h1 _ _ _ _ (fun c hc => absurd hc (List.not_mem_nil c)) hs

theorem chunk_length_le_max_witness :
    (1 ≤ 1 ∧ split_text_into_chunks ("ab").toList 1 = some [['a'], ['b']]) ∧
    (['a'] : List Char).length ≤ 1 :=
  ⟨⟨by decide, by decide⟩,
    chunk_length_le_max ("ab").toList 1 (by decide) [['a'], ['b']] (by decide) ['a'] (by decide)⟩

/-- C2 counterexample: on `" a "` with `max_size = 5` the fast path returns
the input as is, not trimmed, so the returned chunk differs from the
trimmed input the claim promises. -/
theorem split_short_text_not_trimmed :
    split_text_into_chunks (" a ").toList 5 = some [(" a ").toList] ∧
    pyStrip ((" a ").toList) = ("a").toList ∧
    split_text_into_chunks (" a ").toList 5 ≠ some [pyStrip ((" a ").toList)] := by
  refine ⟨by decide, by decide, ?_⟩
  decide

/-- C2 amended: for `len(text) ≤ max_size` the function returns exactly one
chunk equal to the input unchanged (the fast path performs no trimming). -/
theorem split_short_text_returns_input (text : List Char) (m : Nat) (hfit : text.length ≤ m) :
    split_text_into_chunks text m = some [text] := by
  unfold split_text_into_chunks
  rw [if_pos hfit]

theorem split_short_text_returns_input_witness :
    ((" a ").toList.length ≤ 5) ∧
    split_text_into_chunks (" a ").toList 5 = some [(" a ").toList] :=
  ⟨by decide, split_short_text_returns_input ((" a ").toList) 5 (by decide)⟩

/-- C4: the splitting loop can emit an empty chunk.  On five spaces
followed by four `a`s with `max_size = 4`, the space cut lands inside the
leading whitespace and the stripped prefix is empty: the first returned
chunk is `""`, contradicting the non-emptiness invariant. -/
theorem empty_chunk_emitted :
    split_text_into_chunks (List.replicate 5 ' ' ++ List.replicate 4 'a') 4 =
      some [[], ("aaaa").toList] ∧ ([] : List Char) ∈ [([] : List Char), ("aaaa").toList] := by
  refine ⟨by decide, by decide⟩

/-- C5: for `max_size ≥ 1` the loop terminates: the fuelled model returns
a result for every text, and on every oversize remaining text one
iteration strictly shrinks it. -/
theorem split_terminates (m : Nat) (h1 : 1 ≤ m) :
    (∀ text : List Char, (split_text_into_chunks text m).isSome = true) ∧
    (∀ remaining : List Char, m < remaining.length →
      (pyStrip (remaining.drop (chunkEnd remaining m))).length < remaining.length) := by
  constructor
  · intro text
    unfold split_text_into_chunks
    split
    · rfl
    · exact splitLoop_isSome m h1 _ _ _ (by omega)
  · intro remaining hlen
    exact pyStrip_progress remaining m h1 hlen

theorem split_terminates_witness :
    1 ≤ 1 ∧ (split_text_into_chunks ("ab").toList 1).isSome = true :=
  ⟨by decide, (split_terminates 1 (by decide)).1 ("ab").toList⟩

/-- C3 counterexample: in `"aaaaa. X. Ybbbbbbbbbb"` with `max_size = 10`
the rightmost terminator satisfying the claim's own window (position
`8 ≤ max_size - 1`, `8 ≥ max_size/2`, no paragraph break) sits at 8, yet
the code does not cut there: its `rfind` window ends at `max_size - 1`
exclusive, so the first chunk is `"aaaaa."`, not the claim's
`strip(text[:10]) = "aaaaa. X."`. -/
theorem sentence_cut_window_counterexample :
    claimSentenceCut windowCexText 10 = some 8 ∧
    pyRfind windowCexText ['\n', '\n'] 0 (10 : Int) < ((10 / 2 : Nat) : Int) ∧
    split_text_into_chunks windowCexText 10 =
      some [("aaaaa.").toList, ("X. Ybbbbbb").toList, ("bbbb").toList] ∧
    ("aaaaa.").toList ≠ pyStrip (windowCexText.take (8 + 2)) := by
  refine ⟨by decide, by decide, by decide, by decide⟩

/-! ## The boundary-preference example, analysed symbolically -/

theorem findRightmost_exists (f : Nat → Bool) :
    ∀ (n k : Nat), k < n → f k = true → ∃ q, findRightmost f n = some q := by
  intro n
  induction n with
  | zero => intro k hk _; exact absurd hk (by omega)
  | succ n ih =>
    intro k hk hfk
    rw [findRightmost_succ]
    split
    · exact ⟨n, rfl⟩
    · rename_i hfn
      have hkn : k < n := by
        rcases Nat.lt_succ_iff_lt_or_eq.mp hk with h2 | h2
        · exact h2
        · subst h2; exact absurd hfk hfn
      exact ih k hkn hfk

theorem pyRfind_of_not_mem (s sub : List Char) (start fin : Int) (c : Char)
    (hcsub : c ∈ sub) (hc : c ∉ s) : pyRfind s sub start fin = -1 := by
  rcases pyRfind_sound s sub start fin with h | ⟨k, _, _, _, hpre⟩
  · exact h
  · exfalso
    rw [List.isPrefixOf_iff_prefix] at hpre
    rcases hpre with ⟨t, ht⟩
    apply hc
    apply List.drop_subset k s
    rw [← ht]
    exact List.mem_append.mpr (Or.inl hcsub)

theorem drop_replicate_eq (n m : Nat) (a : Char) :
    List.drop n (List.replicate m a) = List.replicate (m - n) a := by
  rw [List.eq_replicate_iff]
  constructor
  · rw [List.length_drop, List.length_replicate]
  · intro b hb
    exact List.eq_of_mem_replicate (List.drop_subset n _ hb)

theorem pyStrip_replicate (n : Nat) (a : Char) (ha : pyIsSpace a = false) :
    pyStrip (List.replicate n a) = List.replicate n a := by
  cases n with
  | zero => rfl
  | succ n =>
    unfold pyStrip
    rw [List.replicate_succ, List.dropWhile_cons_of_neg (by rw [ha]; decide)]
    rw [← List.replicate_succ, List.reverse_replicate, List.replicate_succ]
    rw [List.dropWhile_cons_of_neg (by rw [ha]; decide)]
    rw [← List.replicate_succ, List.reverse_replicate]

/-- The characters of the boundary example. -/
theorem boundaryExampleText_chars (c : Char) (hc : c ∈ boundaryExampleText) :
    c = 'A' ∨ c = '.' ∨ c = ' ' ∨ c = 'B' := by
  unfold boundaryExampleText at hc
  rcases List.mem_append.mp hc with h | h
  · exact Or.inl (List.eq_of_mem_replicate h)
  · rcases List.mem_cons.mp h with h | h
    · exact Or.inr (Or.inl h)
    · rcases List.mem_cons.mp h with h | h
      · exact Or.inr (Or.inr (Or.inl h))
      · exact Or.inr (Or.inr (Or.inr (List.eq_of_mem_replicate h)))

theorem boundaryExampleText_length : boundaryExampleText.length = 4000 := by
  unfold boundaryExampleText
  rw [List.length_append, List.length_replicate, List.length_cons, List.length_cons,
    List.length_replicate]

theorem boundaryExampleText_drop_1999 :
    boundaryExampleText.drop 1999 = '.' :: ' ' :: List.replicate 1999 'B' := by
  unfold boundaryExampleText
  rw [List.drop_append_eq_append_drop, drop_replicate_eq, List.length_replicate, Nat.sub_self]
  rfl

theorem boundaryExampleText_split_2000 :
    boundaryExampleText = (List.replicate 1999 'A' ++ ['.']) ++ (' ' :: List.replicate 1999 'B')
      := by
  unfold boundaryExampleText
  rw [List.append_assoc, List.singleton_append]

theorem boundaryExampleText_split_2001 :
    boundaryExampleText = (List.replicate 1999 'A' ++ ['.', ' ']) ++ List.replicate 1999 'B'
      := by
  unfold boundaryExampleText
  rw [List.append_assoc, List.cons_append, List.singleton_append]

/-- The only sentence terminator of the boundary example sits at 1999. -/
theorem boundaryExampleText_terminator (k : Nat)
    (hk : isSentenceTerminator boundaryExampleText k = true) : k = 1999 := by
  rcases List.any_eq_true.mp hk with ⟨pt, hpt, hpre⟩
  rcases sentencePuncts_shape pt hpt with ⟨x, y, hpt2, hx, _⟩
  rw [hpt2] at hpre
  rcases pair_isPrefixOf x y _ hpre with ⟨t, ht⟩
  have hxB : x ∈ boundaryExampleText := by
    apply List.drop_subset k _
    rw [ht]
    exact List.mem_cons_self _ _
  have hxdot : x = '.' := by
    rcases boundaryExampleText_chars x hxB with h | h | h | h <;>
      rcases hx with h2 | h2 | h2 <;> subst h <;> first | rfl | (exfalso; exact absurd h2 (by decide))
  by_contra hk1999
  rcases Nat.lt_or_ge k 1999 with hklt | hkge
  · -- the character at any position before 1999 is an 'A'
    have hdk : boundaryExampleText.drop k =
        'A' :: (List.replicate (1998 - k) 'A' ++ ('.' :: ' ' :: List.replicate 1999 'B')) := by
      unfold boundaryExampleText
      rw [List.drop_append_eq_append_drop, drop_replicate_eq, List.length_replicate]
      rw [show k - 1999 = 0 from by omega, List.drop_zero]
      rw [show (1999 : Nat) - k = (1998 - k) + 1 from by omega, List.replicate_succ,
        List.cons_append]
    rw [hdk] at ht
    injection ht with h1 _
    rw [hxdot] at h1
    exact absurd h1 (by decide)
  · -- from position 2000 on only spaces and 'B's remain
    have hge2000 : 2000 ≤ k := by omega
    have hlen2000 : (List.replicate 1999 'A' ++ (['.'] : List Char)).length = 2000 := by
      rw [List.length_append, List.length_replicate]
      rfl
    have hsub : boundaryExampleText.drop k ⊆ (' ' :: List.replicate 1999 'B') := by
      rw [boundaryExampleText_split_2000, List.drop_append_eq_append_drop]
      rw [List.drop_eq_nil_of_le (by rw [hlen2000]; omega)]
      rw [List.nil_append]
      exact List.drop_subset _ _
    have hxtail : x ∈ (' ' :: List.replicate 1999 'B') := by
      apply hsub
      rw [ht]
      exact List.mem_cons_self _ _
    rcases List.mem_cons.mp hxtail with h | h
    · rw [hxdot] at h; exact absurd h (by decide)
    · have := List.eq_of_mem_replicate h
      rw [hxdot] at this
      exact absurd this (by decide)

theorem findRightmost_eq_some (f : Nat → Bool) (n k : Nat) (hk : k < n) (hfk : f k = true)
    (huniq : ∀ q, f q = true → q = k) : findRightmost f n = some k := by
  obtain ⟨q, hq⟩ := findRightmost_exists f n k hk hfk
  rcases findRightmost_sound f n q hq with ⟨_, hfq⟩
  rw [hq, huniq q hfq]

theorem boundaryExampleText_codeCut : codeSentenceCut boundaryExampleText 2500 = some 1999 := by
  unfold codeSentenceCut
  apply findRightmost_eq_some
  · rw [boundaryExampleText_length]
    omega
  · simp only [Bool.and_eq_true, decide_eq_true_eq]
    refine ⟨⟨?_, ?_⟩, ?_⟩
    · apply List.any_eq_true.mpr
      refine ⟨['.', ' '], by decide, ?_⟩
      rw [boundaryExampleText_drop_1999]
      rw [List.isPrefixOf_iff_prefix]
      exact ⟨List.replicate 1999 'B', rfl⟩
    · rw [pyNormIdx_sub_one 2500 _ (by omega), boundaryExampleText_length]
      decide
    · decide
  · intro q hq
    simp only [Bool.and_eq_true, decide_eq_true_eq] at hq
    exact boundaryExampleText_terminator q hq.1.1

theorem boundaryExampleText_noParagraph :
    pyRfind boundaryExampleText ['\n', '\n'] 0 ((2500 : Nat) : Int) = -1 := by
  apply pyRfind_of_not_mem _ _ _ _ '\n' (by decide)
  intro h
  rcases boundaryExampleText_chars '\n' h with h2 | h2 | h2 | h2 <;> exact absurd h2 (by decide)

theorem boundaryExampleText_chunkEnd : chunkEnd boundaryExampleText 2500 = 2001 := by
  have := chunkEnd_eq_of_codeCut boundaryExampleText 2500 1999 (by omega)
    (by rw [boundaryExampleText_noParagraph]; decide) boundaryExampleText_codeCut
  omega

theorem boundaryExampleText_first_chunk :
    pyStrip (boundaryExampleText.take 2001) = List.replicate 1999 'A' ++ ['.'] := by
  have hlenA : (List.replicate 1999 'A' ++ (['.', ' '] : List Char)).length = 2001 := by
    rw [List.length_append, List.length_replicate]
    rfl
  have htake : boundaryExampleText.take 2001 = List.replicate 1999 'A' ++ ['.', ' '] := by
    rw [boundaryExampleText_split_2001, ← hlenA]
    exact List.take_left _ _
  rw [htake]
  unfold pyStrip
  have hA : ¬pyIsSpace 'A' = true := by decide
  have hdot : ¬pyIsSpace '.' = true := by decide
  have hspace : pyIsSpace ' ' = true := by decide
  have hcons : List.replicate 1999 'A' ++ (['.', ' '] : List Char) =
      'A' :: (List.replicate 1998 'A' ++ ['.', ' ']) := by
    rw [show (1999 : Nat) = 1998 + 1 from rfl, List.replicate_succ, List.cons_append]
  rw [hcons, List.dropWhile_cons_of_neg hA, ← hcons]
  rw [List.reverse_append]
  have hrev2 : (['.', ' '] : List Char).reverse = [' ', '.'] := rfl
  rw [hrev2]
  have hcons2 : ([' ', '.'] : List Char) ++ (List.replicate 1999 'A').reverse =
      ' ' :: ('.' :: (List.replicate 1999 'A').reverse) := by
    rw [List.cons_append, List.cons_append, List.nil_append]
  rw [hcons2, List.dropWhile_cons_of_pos hspace, List.dropWhile_cons_of_neg hdot]
  rw [List.reverse_cons, List.reverse_reverse]

theorem boundaryExampleText_rest_chunk :
    pyStrip (boundaryExampleText.drop 2001) = List.replicate 1999 'B' := by
  have hlenA : (List.replicate 1999 'A' ++ (['.', ' '] : List Char)).length = 2001 := by
    rw [List.length_append, List.length_replicate]
    rfl
  have hdrop : boundaryExampleText.drop 2001 = List.replicate 1999 'B' := by
    rw [boundaryExampleText_split_2001, ← hlenA]
    exact List.drop_left _ _
  rw [hdrop, pyStrip_replicate 1999 'B' (by decide)]

theorem boundaryExampleText_split :
    split_text_into_chunks boundaryExampleText 2500 =
      some [List.replicate 1999 'A' ++ ['.'], List.replicate 1999 'B'] := by
  have h := split_two_chunks boundaryExampleText 2500 (by omega)
    (by rw [boundaryExampleText_length]; omega) ?_ ?_
  · rw [boundaryExampleText_chunkEnd] at h
    rw [boundaryExampleText_first_chunk, boundaryExampleText_rest_chunk] at h
    exact h
  · rw [boundaryExampleText_chunkEnd, boundaryExampleText_rest_chunk]
    intro h
    have := congrArg List.length h
    rw [List.length_replicate, List.length_nil] at this
    exact absurd this (by decide)
  · rw [boundaryExampleText_chunkEnd, boundaryExampleText_rest_chunk,
      List.length_replicate]
    omega

/-! ## The remaining claim theorems: boundary preference, pipeline,
naming, backends -/

/-- C3 amended: when no acceptable paragraph break exists, the cut falls at
the rightmost sentence terminator whose two characters fit the `rfind`
window `[0, max_size - 1)` — punctuation position at most `max_size - 3` —
accepted only if the position just after the punctuation is at least
`max_size/2`; the first emitted chunk is the stripped prefix ending right
after that separator.  In particular `"A"*1999 + ". " + "B"*1999` at
`max_size = 2500` splits into the 1999 `A`s plus the period, then the 1999
`B`s. -/
theorem sentence_cut_amended :
    (∀ (s : List Char) (m p : Nat), 1 ≤ m → m < s.length →
      pyRfind s ['\n', '\n'] 0 (m : Int) < ((m / 2 : Nat) : Int) →
      codeSentenceCut s m = some p →
      ∃ rest, split_text_into_chunks s m = some (pyStrip (s.take (p + 2)) :: rest)) ∧
    split_text_into_chunks boundaryExampleText 2500 =
      some [List.replicate 1999 'A' ++ ['.'], List.replicate 1999 'B'] := by
  constructor
  · intro s m p h1 hlen hpar hcut
    have hce := chunkEnd_eq_of_codeCut s m p h1 hpar hcut
    rcases split_first_chunk s m h1 hlen with ⟨rest, hsplit⟩
    rw [hce] at hsplit
    exact ⟨rest, hsplit⟩
  · exact boundaryExampleText_split

theorem sentence_cut_amended_witness :
    (1 ≤ 10 ∧ 10 < (("aaaaa. bbbbbbbb").toList).length ∧
      pyRfind ("aaaaa. bbbbbbbb").toList ['\n', '\n'] 0 ((10 : Nat) : Int)
        < ((10 / 2 : Nat) : Int) ∧
      codeSentenceCut ("aaaaa. bbbbbbbb").toList 10 = some 5) ∧
    (∃ rest, split_text_into_chunks ("aaaaa. bbbbbbbb").toList 10 =
      some (pyStrip ((("aaaaa. bbbbbbbb").toList).take (5 + 2)) :: rest)) :=
  ⟨⟨by decide, by decide, by decide, by decide⟩,
    sentence_cut_amended.1 ("aaaaa. bbbbbbbb").toList 10 5 (by decide) (by decide)
      (by decide) (by decide)⟩

/-- The per-chunk loop is a map over chunk indices. -/
theorem multiChunkLoop_spec (env : PipelineEnv) (total : Nat) :
    ∀ (cs : List (List Char)) (i : Nat),
      multiChunkLoop env total i cs =
        (List.range cs.length).map (fun j =>
          processOneChunk env (i + j) (part_file_name env.file_name_base (i + j) total)
            (cs.getD j [])) := by
  intro cs
  induction cs with
  | nil => intro i; rfl
  | cons c cs ih =>
    intro i
    have hfold : multiChunkLoop env total i (c :: cs) =
        processOneChunk env i (part_file_name env.file_name_base i total) c ::
          multiChunkLoop env total (i + 1) cs := rfl
    rw [hfold, ih (i + 1), List.length_cons, List.range_succ_eq_map, List.map_cons,
      List.map_map]
    congr 1
    apply List.map_congr_left
    intro j hj
    simp only [Function.comp_apply, Nat.succ_eq_add_one, List.getD_cons_succ]
    rw [show i + 1 + j = i + (j + 1) from by omega]

/-- C6: in the multi-chunk pipeline, a synthesis failure on one chunk does
not abort the remaining ones.  First scenario: Azure fails (SDK and REST)
exactly on chunk `k` — every chunk still gets an outcome, in order, with a
reported failure at `k` and successes elsewhere.  Second scenario: the
Eleven Labs transport raises on chunk `k` — the exception is caught by the
per-chunk handler and reported, and the loop still covers every chunk. -/
theorem partial_failure_isolation
    (chunks : List (List Char)) (k : Nat) (audio : List Nat) (emsg : List Char)
    (key : List Char) (fb : Option (List Char)) (m2 : List Char)
    (haudio : audio ≠ []) (hkey1 : key ≠ []) (hkey2 : key ≠ azure_placeholder_key) :
    ((multiChunkLoop (azureFailStubEnv k audio emsg key fb) chunks.length 1 chunks).length
        = chunks.length ∧
      multiChunkLoop (azureFailStubEnv k audio emsg key fb) chunks.length 1 chunks =
        (List.range chunks.length).map (fun j =>
          if 1 + j = k then .azureErrorReported (some emsg)
          else .sentVoice audio (part_file_name fb (1 + j) chunks.length))) ∧
    ((multiChunkLoop (elevenRaiseStubEnv k audio m2 fb) chunks.length 1 chunks).length
        = chunks.length ∧
      multiChunkLoop (elevenRaiseStubEnv k audio m2 fb) chunks.length 1 chunks =
        (List.range chunks.length).map (fun j =>
          if 1 + j = k then .errorReported m2
          else .sentVoice audio (part_file_name fb (1 + j) chunks.length))) := by
  have htruthy : pyTruthyBytes (some audio) = true := by
    cases audio with
    | nil => exact absurd rfl haudio
    | cons a l => rfl
  have hfalsy : pyFalsyStr (some key) = false := by
    cases key with
    | nil => exact absurd rfl hkey1
    | cons a l => rfl
  have hbeq : (key == azure_placeholder_key) = false := beq_eq_false_iff_ne.mpr hkey2
  have hazure : ∀ j : Nat, ∀ text : List Char,
      processOneChunk (azureFailStubEnv k audio emsg key fb) j
        (part_file_name fb j chunks.length) text =
        (if j = k then .azureErrorReported (some emsg)
         else .sentVoice audio (part_file_name fb j chunks.length)) := by
    intro j text
    by_cases hj : j = k
    · rw [if_pos hj]
      unfold processOneChunk processChunkBody azureFailStubEnv azure_text_to_speech
      simp [hfalsy, hbeq, hj, pyTruthyBytes]
    · rw [if_neg hj]
      unfold processOneChunk processChunkBody azureFailStubEnv azure_text_to_speech
        sendChunkAudio
      simp [hfalsy, hbeq, hj, htruthy]
  have heleven : ∀ j : Nat, ∀ text : List Char,
      processOneChunk (elevenRaiseStubEnv k audio m2 fb) j
        (part_file_name fb j chunks.length) text =
        (if j = k then .errorReported m2
         else .sentVoice audio (part_file_name fb j chunks.length)) := by
    intro j text
    by_cases hj : j = k
    · rw [if_pos hj]
      unfold processOneChunk processChunkBody elevenRaiseStubEnv elevenlabs_text_to_speech
      simp [hj]
    · rw [if_neg hj]
      unfold processOneChunk processChunkBody elevenRaiseStubEnv elevenlabs_text_to_speech
        sendChunkAudio
      simp [hj, htruthy]
  constructor
  · constructor
    · rw [multiChunkLoop_spec, List.length_map, List.length_range]
    · rw [multiChunkLoop_spec]
      apply List.map_congr_left
      intro j hj
      show processOneChunk (azureFailStubEnv k audio emsg key fb) (1 + j)
        (part_file_name fb (1 + j) chunks.length) (chunks.getD j []) = _
      rw [hazure (1 + j) (chunks.getD j [])]
  · constructor
    · rw [multiChunkLoop_spec, List.length_map, List.length_range]
    · rw [multiChunkLoop_spec]
      apply List.map_congr_left
      intro j hj
      show processOneChunk (elevenRaiseStubEnv k audio m2 fb) (1 + j)
        (part_file_name fb (1 + j) chunks.length) (chunks.getD j []) = _
      rw [heleven (1 + j) (chunks.getD j [])]

theorem partial_failure_isolation_witness :
    (([1] : List Nat) ≠ [] ∧ ("k").toList ≠ ([] : List Char) ∧
      ("k").toList ≠ azure_placeholder_key) ∧
    (multiChunkLoop (azureFailStubEnv 2 [1] ("e").toList ("k").toList none) 3 1
      [("x").toList, ("y").toList, ("z").toList]).length = 3 :=
  ⟨⟨by decide, by decide, by decide⟩,
    (partial_failure_isolation [("x").toList, ("y").toList, ("z").toList] 2 [1]
      ("e").toList ("k").toList none ("boom").toList (by decide) (by decide)
      (by decide)).1.1⟩

set_option maxRecDepth 4000 in
/-- C7 counterexample: the truncation `base[:35] + "..."` produces a
38-character name, not the 36 characters the claim states — witnessed by
the base built from a 100-`A` book title and chapter `"Ch1"`. -/
theorem base_truncation_counterexample :
    (truncate_base_file_name
        (make_base_file_name (List.replicate 100 'A') ("Ch1").toList [])).length = 38 ∧
    ¬(truncate_base_file_name
        (make_base_file_name (List.replicate 100 'A') ("Ch1").toList [])).length = 36 := by
  refine ⟨by decide, by decide⟩

set_option maxRecDepth 4000 in
/-- C7 amended: a base name longer than 36 characters is truncated to a
35-character prefix plus the `...` marker — 38 characters in all — before
any part suffix is appended, and for `total == 1` the delivered label (the
truncated base handed to `process_text_chunk` as file name) is at most 64
characters and ends in the marker. -/
theorem base_truncation_amended :
    (∀ base : List Char, (truncate_base_file_name base).length ≤ 38 ∨
      truncate_base_file_name base = base) ∧
    (∀ base : List Char, truncate_base_file_name base = base ∨
      ((truncate_base_file_name base).length = 38 ∧
        (['.', '.', '.'] : List Char).isSuffixOf (truncate_base_file_name base) = true)) ∧
    ((truncate_base_file_name
        (make_base_file_name (List.replicate 100 'A') ("Ch1").toList [])).length = 38 ∧
      (['.', '.', '.'] : List Char).isSuffixOf
        (truncate_base_file_name
          (make_base_file_name (List.replicate 100 'A') ("Ch1").toList [])) = true ∧
      process_text_chunk_output_name ("Title").toList
          (some (truncate_base_file_name
            (make_base_file_name (List.replicate 100 'A') ("Ch1").toList []))) =
        truncate_base_file_name
          (make_base_file_name (List.replicate 100 'A') ("Ch1").toList []) ∧
      (process_text_chunk_output_name ("Title").toList
          (some (truncate_base_file_name
            (make_base_file_name (List.replicate 100 'A') ("Ch1").toList [])))).length ≤ 64)
      := by
  refine ⟨?_, ?_, by decide, by decide, by decide, by decide⟩
  · intro base
    unfold truncate_base_file_name
    split
    · left
      rw [List.length_append, List.length_take]
      simp only [List.length_cons, List.length_nil]
      omega
    · right
      rfl
  · intro base
    unfold truncate_base_file_name
    split
    · rename_i hgt
      right
      constructor
      · rw [List.length_append, List.length_take]
        simp only [List.length_cons, List.length_nil]
        omega
      · rw [List.isSuffixOf_iff_suffix]
        exact List.suffix_append _ _
    · left
      rfl

/-- C8: the staging file is deleted on the handled outcome paths of
`azure_sdk_synthesis` (success, cancellation, other failure reasons) but
NOT on the exception path: when the synthesis call raises after the file
was created, the function returns from its handler with the file still
present. -/
theorem staging_file_leak_on_exception :
    (azure_sdk_synthesis true (.raisedAfterFile ("network failure").toList)).tempFileRemains
        = true ∧
    (azure_sdk_synthesis true (.completed [1, 2, 3])).tempFileRemains = false ∧
    (azure_sdk_synthesis true (.canceled ("CancellationReason.Error").toList
        ("timeout").toList)).tempFileRemains = false ∧
    (azure_sdk_synthesis true (.failedReason ("ResultReason.NoMatch").toList)).tempFileRemains
        = false := by
  exact ⟨rfl, rfl, rfl, rfl⟩

/-- C9: with the Azure key missing, empty, or equal to the placeholder,
`azure_text_to_speech` returns the configuration error immediately and
attempts neither the SDK call nor the REST fallback. -/
theorem azure_config_short_circuit (text : List Char) (key : Option (List Char))
    (sdk rest : AzureCall)
    (hkey : key = none ∨ key = some [] ∨ key = some azure_placeholder_key) :
    (azure_text_to_speech text key sdk rest).audio = none ∧
    (azure_text_to_speech text key sdk rest).error =
      some ("Azure Speech key not properly configured").toList ∧
    (azure_text_to_speech text key sdk rest).sdkAttempted = false ∧
    (azure_text_to_speech text key sdk rest).restAttempted = false := by
  have hcond : (pyFalsyStr key || (key.getD [] == azure_placeholder_key)) = true := by
    rcases hkey with h | h | h <;> subst h <;> decide
  unfold azure_text_to_speech
  rw [hcond]
  exact ⟨rfl, rfl, rfl, rfl⟩

theorem azure_config_short_circuit_witness :
    ((none : Option (List Char)) = none ∨ (none : Option (List Char)) = some [] ∨
      (none : Option (List Char)) = some azure_placeholder_key) ∧
    (azure_text_to_speech ("hi").toList none (.ret (some [1]) none)
        (.ret (some [1]) none)).sdkAttempted = false ∧
    (azure_text_to_speech ("hi").toList none (.ret (some [1]) none)
        (.ret (some [1]) none)).restAttempted = false :=
  ⟨Or.inl rfl,
    (azure_config_short_circuit ("hi").toList none (.ret (some [1]) none)
      (.ret (some [1]) none) (Or.inl rfl)).2.2.1,
    (azure_config_short_circuit ("hi").toList none (.ret (some [1]) none)
      (.ret (some [1]) none) (Or.inl rfl)).2.2.2⟩

/-- C10: `elevenlabs_text_to_speech` performs no credential precheck — the
request is issued whatever the key, which is passed through in the header —
and when the transport responds it returns `None` exactly when the status
is not 200, with no typed error kind or message attached. -/
theorem eleven_no_credential_precheck (text : List Char) (api_key : Option (List Char))
    (voice_id : Option (List Char)) (dflt : List Char) (status : Nat) (content : List Nat) :
    (elevenlabs_text_to_speech text api_key voice_id dflt (.resp status content)).requestSent
        = true ∧
    (elevenlabs_text_to_speech text api_key voice_id dflt (.resp status content)).header_api_key
        = api_key ∧
    ((elevenlabs_text_to_speech text api_key voice_id dflt (.resp status content)).outcome
        = .ok none ↔ status ≠ 200) ∧
    ((elevenlabs_text_to_speech text api_key voice_id dflt (.resp status content)).outcome
        = .ok (some content) ↔ status = 200) := by
  refine ⟨rfl, rfl, ?_, ?_⟩
  · unfold elevenlabs_text_to_speech
    by_cases h : status = 200
    · subst h
      simp
    · simp [h]
  · unfold elevenlabs_text_to_speech
    by_cases h : status = 200
    · subst h
      simp
    · simp [h]

end TTSBot
